import Mathlib

/-!
Verification of the torch pager (src/main.rs) against its specification.

The embedding below translates the application state, the scroll operations,
the event dispatch of the main loop, and the rendering pass `App::draw_ui`
into Lean. The external `shuten_core` collaborators that the core arithmetic
depends on (`lerp`, `Rgb::blend_flat`, the canvas geometry) are modelled from
the specification, as noted on each definition. Rendering is modelled as the
trace of `canvas.put` calls the code emits, together with the initial
`canvas.fill` color; machine integers (`usize`, `u16` cell coordinates)
become `Nat`, and the `f32` operations `hypot` and `sqrt` become an
uninterpreted pair of rational functions over which every theorem
quantifies.
-/

set_option autoImplicit false

namespace Torch

/-- Grid-cell coordinate (shuten_core `Pos2`): unsigned column `x` and row `y`. -/
structure Pos2 where
  x : ℕ
  y : ℕ
deriving DecidableEq

/-- 24-bit RGB color (shuten_core `Rgb`); channels carried as rationals so that
the blend arithmetic is exact. -/
structure Rgb where
  r : ℚ
  g : ℚ
  b : ℚ
deriving DecidableEq

/-- `Rgb::from_u32`: unpack a `0xRRGGBB` word into channels. -/
def rgbFromU32 (n : ℕ) : Rgb :=
  ⟨((n / 65536) % 256 : ℕ), ((n / 256) % 256 : ℕ), ((n % 256 : ℕ))⟩

/-- Modelled from the spec (§4.3 step 4): shuten_core `Rgb::blend_flat`, the
channel-wise linear mix of this color toward `other` by factor `t`. -/
def blendFlat (a other : Rgb) (t : ℚ) : Rgb :=
  ⟨a.r + (other.r - a.r) * t, a.g + (other.g - a.g) * t, a.b + (other.b - a.b) * t⟩

/-- Modelled from the spec (§4.3 step 3): shuten_core geom `lerp` over the range
`lo..=hi`, saturating the interpolation parameter into `[0, 1]` before
interpolating. -/
def lerp (lo hi t : ℚ) : ℚ :=
  lo + (hi - lo) * min (max t 0) 1

/-- Stand-in for the two `f32` operations used by `App::maybe_blend`
(`f32::hypot` and `f32::sqrt`). Theorems quantify over every such stand-in,
so they hold for whatever values the floating-point code produces. -/
structure FloatOps where
  hypot : ℚ → ℚ → ℚ
  sqrt : ℚ → ℚ

/-- A concrete float stand-in used by witnesses and counterexamples. -/
def zeroOps : FloatOps := ⟨fun _ _ => 0, fun _ => 0⟩

/-- A rendered cell (shuten_core `Cell`): character plus foreground and
background colors, built as `Cell::new(c).fg(..).bg(..)`. -/
structure Cell where
  ch : Char
  fg : Rgb
  bg : Rgb
deriving DecidableEq

/-- `App::FG`, the fixed ink color `#000000`. -/
def FG : Rgb := rgbFromU32 0x000000

/-- `App::BG`, the fixed parchment color `#F0E68C`. -/
def BG : Rgb := rgbFromU32 0xF0E68C

/-- `App::SHADOW`, the fixed shadow color `#333333`. -/
def SHADOW : Rgb := rgbFromU32 0x333333

/-- The application state (`struct App` in main.rs). Document lines are lists
of characters, matching the `line.chars()` iteration in `draw_ui`. -/
structure App where
  cursor : Pos2
  enabled : Bool
  lines : List (List Char)
  pos : ℕ
deriving DecidableEq

/-- `App::new`: cursor at the origin, spotlight disabled, `pos` starting at the
number of document lines. -/
def App.new (lines : List (List Char)) : App :=
  ⟨⟨0, 0⟩, false, lines, lines.length⟩

/-- `App::scroll_up`: `pos.saturating_sub(delta)`. -/
def scroll_up (app : App) (delta : ℕ) : App :=
  { app with pos := app.pos - delta }

/-- `App::scroll_down`: `(pos + delta).min(lines.len())`. -/
def scroll_down (app : App) (delta : ℕ) : App :=
  { app with pos := min (app.pos + delta) app.lines.length }

/-- The space-key arm of the event loop: `app.enabled = !app.enabled`. -/
def toggleSpotlight (app : App) : App :=
  { app with enabled := !app.enabled }

/-- The tail of the mouse arm of the event loop: `app.cursor = ev.pos()`. -/
def setPointer (app : App) (p : Pos2) : App :=
  { app with cursor := p }

/-- `App::maybe_blend`: with the spotlight disabled, fixed ink on parchment;
with it enabled, the background is parchment blended toward shadow by
`lerp(0.0..=0.25, hypot(dx, dy).sqrt().max(1.5))` where `dx, dy` are the
aspect-corrected offsets of the cell from the cursor (1.6 = 8/5 and 3.0). -/
def maybe_blend (F : FloatOps) (app : App) (pos : Pos2) (c : Char) : Cell :=
  if !app.enabled then
    Cell.mk c FG BG
  else
    let x := ((pos.x : ℚ) - (app.cursor.x : ℚ)) * (8 / 5)
    let y := ((pos.y : ℚ) - (app.cursor.y : ℚ)) * 3
    let distance := max (F.sqrt (F.hypot x y)) (3 / 2)
    let blend := lerp 0 (1 / 4) distance
    Cell.mk c FG (blendFlat BG SHADOW blend)

/-- `usize::checked_sub`. -/
def checkedSub (a b : ℕ) : Option ℕ :=
  if b ≤ a then some (a - b) else none

/-- The document-line start offset computed at the top of `App::draw_ui`:
`lines.len().saturating_sub(pos)`, then `checked_sub(height.saturating_sub(1))`
with `unwrap_or` keeping the un-subtracted value on underflow. -/
def offsetOf (lineCount pos H : ℕ) : ℕ :=
  let offset := lineCount - pos
  match checkedSub offset (H - 1) with
  | some v => v
  | none => offset

/-- The wrap step at the top of the character loop of `draw_ui`: when the
column has reached `W`, move the pen to column 0 of the next row. -/
def wrapPos (W : ℕ) (s : Pos2) : Pos2 :=
  if W ≤ s.x then ⟨0, s.y + 1⟩ else s

/-- The character loop of `draw_ui`: one `canvas.put` per character, hard
wrapping to column 0 of the next row whenever the column reaches `W`; returns
the emitted puts and the final pen position. -/
def putChars (blend : Pos2 → Char → Cell) (W : ℕ) :
    List Char → Pos2 → List (Pos2 × Cell) × Pos2
  | [], start => ([], start)
  | c :: cs, start =>
    ((wrapPos W start, blend (wrapPos W start) c)
        :: (putChars blend W cs ⟨(wrapPos W start).x + 1, (wrapPos W start).y⟩).1,
     (putChars blend W cs ⟨(wrapPos W start).x + 1, (wrapPos W start).y⟩).2)

/-- The fill-in-the-rest-of-the-line loop of `draw_ui`: pad the current row
with blanks while the column is below `W`. -/
def padRow (blend : Pos2 → Char → Cell) (W x y : ℕ) : List (Pos2 × Cell) :=
  if x < W then ((⟨x, y⟩ : Pos2), blend ⟨x, y⟩ ' ') :: padRow blend W (x + 1) y
  else []
termination_by W - x

/-- One full row of blanks, columns `0..W`, used by the fill-rest-of-screen
pass (`Rect::indices` is row-major). -/
def fillRow (blend : Pos2 → Char → Cell) (W y : ℕ) : List (Pos2 × Cell) :=
  (List.range W).map fun i => ((⟨i, y⟩ : Pos2), blend ⟨i, y⟩ ' ')

/-- The fill-in-the-rest-of-the-screen pass of `draw_ui`: blank cells for every
row from `y` up to `H`, modelling `Rect::from_min_max(start, rect.max).indices()`. -/
def fillRest (blend : Pos2 → Char → Cell) (W H y : ℕ) : List (Pos2 × Cell) :=
  if y < H then fillRow blend W y ++ fillRest blend W H (y + 1) else []
termination_by H - y

/-- The per-line loop of `draw_ui`: stop when the row index has reached `H`,
otherwise emit the line's characters, pad the final row, and continue at
column 0 of the following row. -/
def drawLines (blend : Pos2 → Char → Cell) (W H : ℕ) :
    List (List Char) → Pos2 → List (Pos2 × Cell) × Pos2
  | [], start => ([], start)
  | line :: rest, start =>
    if H ≤ start.y then ([], start)
    else
      let s1 := putChars blend W line start
      let pads := padRow blend W s1.2.x s1.2.y
      let s2 := drawLines blend W H rest ⟨0, s1.2.y + 1⟩
      (s1.1 ++ pads ++ s2.1, s2.2)

/-- The body of `draw_ui` after the offset computation: the `canvas.fill`
color, then the put trace of the line loop starting at the given document
line index, then the fill-rest-of-screen pass when rows remain. -/
def render (fill : Rgb) (blend : Pos2 → Char → Cell) (docLines : List (List Char))
    (W H skip : ℕ) : Rgb × List (Pos2 × Cell) :=
  let dl := drawLines blend W H (docLines.drop skip) ⟨0, 0⟩
  (fill, dl.1 ++ (if dl.2.y < H then fillRest blend W H dl.2.y else []))

/-- `App::draw_ui` rendering from an explicit document-line start index. -/
def renderAt (F : FloatOps) (app : App) (W H skip : ℕ) : Rgb × List (Pos2 × Cell) :=
  render (if app.enabled then FG else BG) (maybe_blend F app) app.lines W H skip

/-- `App::draw_ui` on a `W×H` canvas, as the fill color plus the trace of
`canvas.put` calls. -/
def drawUi (F : FloatOps) (app : App) (W H : ℕ) : Rgb × List (Pos2 × Cell) :=
  renderAt F app W H (offsetOf app.lines.length app.pos H)

/-- A mouse event (shuten_core `MouseEvent`): a scroll with a signed direction,
or any other mouse event; every variant carries a position `ev.pos()`. -/
inductive MouseEvent
  | scroll (dir : ℤ × ℤ) (pos : Pos2)
  | move (pos : Pos2)
deriving DecidableEq

/-- `MouseEvent::pos()`. -/
def MouseEvent.pos : MouseEvent → Pos2
  | .scroll _ p => p
  | .move p => p

/-- The keys the event loop distinguishes; `otherKey` stands for every other
decoded key. -/
inductive Key
  | char (c : Char)
  | pageUp
  | pageDown
  | up
  | down
  | otherKey
deriving DecidableEq

/-- A decoded input event (shuten_core `Event`); `other` stands for every
event matched by the catch-all arm of the loop. -/
inductive Event
  | mouse (ev : MouseEvent)
  | keyboard (k : Key)
  | quit
  | other
deriving DecidableEq

/-- One dispatch of the `match event` in `main`: `H` is
`terminal.rect().height()`, used by the page keys. A mouse event scrolls by 3
when it is a wheel event (`scroll_down` for a negative vertical direction,
`scroll_up` otherwise) and then unconditionally overwrites the cursor; space
toggles the spotlight; the arrow and page keys scroll; `Quit` and the
catch-all arm leave the state untouched. -/
def step (H : ℕ) : Event → App → App
  | .mouse ev, app =>
    let app :=
      match ev with
      | .scroll dir _ => if dir.2 < 0 then scroll_down app 3 else scroll_up app 3
      | .move _ => app
    setPointer app ev.pos
  | .keyboard (.char c), app => if c = ' ' then toggleSpotlight app else app
  | .keyboard .pageUp, app => scroll_down app (H * 2)
  | .keyboard .pageDown, app => scroll_up app (H * 2)
  | .keyboard .up, app => scroll_down app 1
  | .keyboard .down, app => scroll_up app 1
  | _, app => app

/-- The spec's skip formula (§4.2 step 1), stated from the spec's words for
comparison with `offsetOf`: `raw = lineCount - pos`; subtract `H - 1` only
when `raw ≥ H - 1`, else keep the raw value. -/
def specSkip (lineCount pos H : ℕ) : ℕ :=
  let raw := lineCount - pos
  if H - 1 ≤ raw then raw - (H - 1) else raw

/-- Every put in the trace lands inside the `W×H` grid. -/
def withinGrid (W H : ℕ) (puts : List (Pos2 × Cell)) : Prop :=
  ∀ pc ∈ puts, pc.1.x < W ∧ pc.1.y < H

/-- Every cell in the trace is fixed ink on fixed parchment. -/
def allInk (puts : List (Pos2 × Cell)) : Prop :=
  ∀ pc ∈ puts, pc.2.fg = FG ∧ pc.2.bg = BG

/-- A scroll command, for stating the saturation invariant over arbitrary
sequences of scroll calls. -/
inductive ScrollOp
  | upO (d : ℕ)
  | downO (d : ℕ)

/-- Apply one scroll command. -/
def applyScroll (app : App) : ScrollOp → App
  | .upO d => scroll_up app d
  | .downO d => scroll_down app d

lemma toggle_toggle (app : App) : toggleSpotlight (toggleSpotlight app) = app := by
  cases app with
  | mk c e l p => simp [toggleSpotlight]

lemma applyScroll_lines (app : App) (op : ScrollOp) :
    (applyScroll app op).lines = app.lines := by
  cases op <;> rfl

lemma applyScroll_pos_le (app : App) (op : ScrollOp) (h : app.pos ≤ app.lines.length) :
    (applyScroll app op).pos ≤ (applyScroll app op).lines.length := by
  cases op with
  | upO d => simp only [applyScroll, scroll_up]; omega
  | downO d => simp only [applyScroll, scroll_down]; omega

lemma foldl_scroll_invariant (ops : List ScrollOp) :
    ∀ app : App, app.pos ≤ app.lines.length →
      (ops.foldl applyScroll app).pos ≤ (ops.foldl applyScroll app).lines.length := by
  induction ops with
  | nil => intro app h; exact h
  | cons op rest ih => intro app h; exact ih _ (applyScroll_pos_le app op h)

lemma foldl_scroll_lines (ops : List ScrollOp) :
    ∀ app : App, (ops.foldl applyScroll app).lines = app.lines := by
  induction ops with
  | nil => intro app; rfl
  | cons op rest ih => intro app; rw [List.foldl_cons, ih, applyScroll_lines]

/-- C1: for `0 ≤ pos ≤ lineCount`, the document-line start offset of `draw_ui`
is `raw = lineCount - pos`, then `raw - (H - 1)` exactly when `raw ≥ H - 1`
and the un-subtracted `raw` otherwise (never clamped to zero), and rendering
begins at that document line index. -/
theorem c1_skip (F : FloatOps) (cursor : Pos2) (enabled : Bool)
    (lines : List (List Char)) (pos W H : ℕ) (_hpos : pos ≤ lines.length) :
    offsetOf lines.length pos H = specSkip lines.length pos H ∧
    drawUi F ⟨cursor, enabled, lines, pos⟩ W H
      = renderAt F ⟨cursor, enabled, lines, pos⟩ W H (specSkip lines.length pos H) := by
  have h : offsetOf lines.length pos H = specSkip lines.length pos H := by
    unfold offsetOf specSkip checkedSub
    by_cases hc : H - 1 ≤ lines.length - pos <;> simp [hc]
  refine ⟨h, ?_⟩
  show renderAt F ⟨cursor, enabled, lines, pos⟩ W H (offsetOf lines.length pos H) = _
  rw [h]

/-- C1 witness: the theorem applied to the spec's concrete scenario
(two lines, pos = 1, grid 5×2). -/
theorem c1_skip_witness :
    (1 : ℕ) ≤ ([['h'], ['i']] : List (List Char)).length ∧
    offsetOf 2 1 2 = specSkip 2 1 2 :=
  ⟨by decide, (c1_skip zeroOps ⟨0, 0⟩ false [['h'], ['i']] 1 5 2 (by decide)).1⟩

/-- C2: from the initial state `pos = lineCount`, every finite sequence of
scroll calls keeps `pos` within `[0, lineCount]`; `scroll_up` computes
`max(0, pos - delta)` and `scroll_down` computes `min(lineCount, pos + delta)`. -/
theorem c2_saturation (lines : List (List Char)) (ops : List ScrollOp) :
    (App.new lines).pos = lines.length ∧
    (∀ (app : App) (d : ℕ),
      ((scroll_up app d).pos : ℤ) = max 0 ((app.pos : ℤ) - (d : ℤ)) ∧
      ((scroll_down app d).pos : ℤ)
        = min ((app.lines.length : ℤ)) ((app.pos : ℤ) + (d : ℤ))) ∧
    (0 : ℤ) ≤ ((ops.foldl applyScroll (App.new lines)).pos : ℤ) ∧
    ((ops.foldl applyScroll (App.new lines)).pos : ℤ) ≤ (lines.length : ℤ) := by
  refine ⟨rfl, fun app d => ⟨?_, ?_⟩, ?_, ?_⟩
  · simp only [scroll_up]; omega
  · simp only [scroll_down]; omega
  · omega
  · have h := foldl_scroll_invariant ops (App.new lines) (le_of_eq rfl)
    rw [foldl_scroll_lines] at h
    exact_mod_cast h

/-- C4: with the spotlight enabled, `max(1.5, sqrt(hypot(..)))` feeds the
saturating `lerp(0.0, 0.25, dist)` a parameter at least 1, so the blend factor
is exactly 0.25 and every background is parchment blended toward shadow by
1/4, for every pointer position and every float stand-in. -/
theorem c4_degenerate_blend (F : FloatOps) (app : App) (p : Pos2) (c : Char)
    (h : app.enabled = true) :
    maybe_blend F app p c = Cell.mk c FG (blendFlat BG SHADOW (1 / 4)) ∧
    (∀ t : ℚ, lerp 0 (1 / 4) (max t (3 / 2)) = 1 / 4) := by
  have hl : ∀ t : ℚ, lerp 0 (1 / 4) (max t (3 / 2)) = 1 / 4 := by
    intro t
    have h1 : (1 : ℚ) ≤ max t (3 / 2) :=
      le_trans (by norm_num) (le_max_right t (3 / 2))
    unfold lerp
    rw [max_eq_left (le_trans zero_le_one h1), min_eq_right h1]
    ring
  refine ⟨?_, hl⟩
  simp only [maybe_blend, h, Bool.not_true, Bool.false_eq_true, if_false]
  rw [hl]

/-- Concrete enabled state for the C4 witness. -/
def appB : App := ⟨⟨3, 4⟩, true, [['a']], 1⟩

/-- C4 witness: the theorem applied at a concrete enabled state, cell and
pointer. -/
theorem c4_witness :
    appB.enabled = true ∧
    maybe_blend zeroOps appB ⟨0, 0⟩ 'x' = Cell.mk 'x' FG (blendFlat BG SHADOW (1 / 4)) :=
  ⟨rfl, (c4_degenerate_blend zeroOps appB ⟨0, 0⟩ 'x' rfl).1⟩

/-- Ten empty lines with pos = 5, for the wheel counterexample. -/
def appC : App := ⟨⟨0, 0⟩, false, List.replicate 10 [], 5⟩

/-- C5 counterexample: on a concrete state a negative-direction wheel event
raises `pos` from 5 to 8 instead of lowering it to 2, and a positive-direction
wheel event lowers `pos` from 5 to 2 instead of raising it to 8. -/
theorem c5_counterexample :
    (step 0 (.mouse (.scroll (0, -1) ⟨0, 0⟩)) appC).pos = 8 ∧ (8 : ℕ) ≠ 5 - 3 ∧
    (step 0 (.mouse (.scroll (0, 1) ⟨0, 0⟩)) appC).pos = 2 ∧ (2 : ℕ) ≠ min (5 + 3) 10 := by
  refine ⟨by decide, by decide, by decide, by decide⟩

/-- C5 (amended): a wheel event with negative vertical direction increases
`pos` by 3 saturating at `lineCount`; one with zero or positive vertical
direction decreases `pos` by 3 saturating at 0; either way the tracked
pointer is overwritten with the event position. -/
theorem c5_wheel (H : ℕ) (app : App) (dir : ℤ × ℤ) (p : Pos2) :
    ((step H (.mouse (.scroll dir p)) app).pos : ℤ)
      = (if dir.2 < 0 then min ((app.lines.length : ℤ)) ((app.pos : ℤ) + 3)
         else max 0 ((app.pos : ℤ) - 3)) ∧
    (step H (.mouse (.scroll dir p)) app).cursor = p := by
  constructor
  · by_cases hd : dir.2 < 0 <;>
      (simp [step, MouseEvent.pos, setPointer, scroll_up, scroll_down, hd]; omega)
  · rfl

/-- Two empty lines with pos = 2, for the idempotence counterexample. -/
def appA : App := ⟨⟨0, 0⟩, false, [[], []], 2⟩

/-- C6 counterexample: on a concrete state, toggling the spotlight twice
differs from toggling once, and scrolling up by 1 twice differs from doing it
once — two of the four mutators are not idempotent. -/
theorem c6_counterexample :
    toggleSpotlight (toggleSpotlight appA) ≠ toggleSpotlight appA ∧
    scroll_up (scroll_up appA 1) 1 ≠ scroll_up appA 1 := by
  refine ⟨by decide, by decide⟩

/-- C6 (amended): `setPointer` is idempotent under repeated identical calls;
`toggleSpotlight` is an involution (two toggles restore the state) rather
than idempotent; the scrolls accumulate with saturation: scrolling twice by
`d` equals scrolling once by `2*d`, so they are idempotent only where already
saturated. -/
theorem c6_mutators (app : App) (p : Pos2) (d : ℕ) :
    setPointer (setPointer app p) p = setPointer app p ∧
    toggleSpotlight (toggleSpotlight app) = app ∧
    scroll_up (scroll_up app d) d = scroll_up app (2 * d) ∧
    scroll_down (scroll_down app d) d = scroll_down app (2 * d) := by
  refine ⟨rfl, toggle_toggle app, ?_, ?_⟩
  · cases app with
    | mk c e l pos => simp [scroll_up, App.mk.injEq]; omega
  · cases app with
    | mk c e l pos => simp [scroll_down, App.mk.injEq]; omega

/-- C8: toggling the spotlight twice restores the state exactly, and since
`draw_ui` is a pure function of the state and the grid size, re-rendering
after the double toggle reproduces the identical frame. -/
theorem c8_toggle_involution (F : FloatOps) (app : App) (W H : ℕ) :
    toggleSpotlight (toggleSpotlight app) = app ∧
    drawUi F (toggleSpotlight (toggleSpotlight app)) W H = drawUi F app W H := by
  refine ⟨toggle_toggle app, ?_⟩
  rw [toggle_toggle]

/-- Three empty lines with pos = 1, for the event-mutation counterexample. -/
def appD : App := ⟨⟨0, 0⟩, false, [[], [], []], 1⟩

/-- C9 counterexample: a single wheel event mutates two distinct state fields
on a concrete state: `pos` changes from 1 to 3 and the pointer changes from
(0,0) to (5,7). -/
theorem c9_counterexample :
    (step 0 (.mouse (.scroll (0, -1) ⟨5, 7⟩)) appD).pos ≠ appD.pos ∧
    (step 0 (.mouse (.scroll (0, -1) ⟨5, 7⟩)) appD).cursor ≠ appD.cursor := by
  refine ⟨by decide, by decide⟩

/-- C9 (amended): a non-scroll mouse event only overwrites the pointer; a
wheel event mutates two fields, scrolling `pos` and overwriting the pointer;
a character key toggles `enabled` exactly when it is the space key and
otherwise mutates nothing; the arrow and page keys leave pointer, `enabled`
and the document unchanged (they only scroll); `Quit`, unrecognized keys and
unrecognized events mutate nothing. -/
theorem c9_mutations (H : ℕ) (app : App) :
    (∀ p : Pos2, step H (.mouse (.move p)) app = setPointer app p) ∧
    (∀ (dir : ℤ × ℤ) (p : Pos2),
      (step H (.mouse (.scroll dir p)) app).cursor = p ∧
      (step H (.mouse (.scroll dir p)) app).pos
        = (if dir.2 < 0 then min (app.pos + 3) app.lines.length else app.pos - 3) ∧
      (step H (.mouse (.scroll dir p)) app).enabled = app.enabled ∧
      (step H (.mouse (.scroll dir p)) app).lines = app.lines) ∧
    (∀ c : Char, step H (.keyboard (.char c)) app
        = if c = ' ' then toggleSpotlight app else app) ∧
    ((step H (.keyboard .pageUp) app).cursor = app.cursor ∧
     (step H (.keyboard .pageUp) app).enabled = app.enabled ∧
     (step H (.keyboard .pageUp) app).lines = app.lines) ∧
    ((step H (.keyboard .pageDown) app).cursor = app.cursor ∧
     (step H (.keyboard .pageDown) app).enabled = app.enabled ∧
     (step H (.keyboard .pageDown) app).lines = app.lines) ∧
    ((step H (.keyboard .up) app).cursor = app.cursor ∧
     (step H (.keyboard .up) app).enabled = app.enabled ∧
     (step H (.keyboard .up) app).lines = app.lines) ∧
    ((step H (.keyboard .down) app).cursor = app.cursor ∧
     (step H (.keyboard .down) app).enabled = app.enabled ∧
     (step H (.keyboard .down) app).lines = app.lines) ∧
    step H (.keyboard .otherKey) app = app ∧
    step H .quit app = app ∧
    step H .other app = app := by
  refine ⟨fun p => rfl, ?_, fun c => rfl, ⟨rfl, rfl, rfl⟩, ⟨rfl, rfl, rfl⟩,
    ⟨rfl, rfl, rfl⟩, ⟨rfl, rfl, rfl⟩, rfl, rfl, rfl⟩
  intro dir p
  by_cases hd : dir.2 < 0 <;>
    simp [step, MouseEvent.pos, setPointer, scroll_up, scroll_down, hd]

lemma putChars_cons_nowrap (blend : Pos2 → Char → Cell) (W : ℕ) (c : Char)
    (cs : List Char) (x y : ℕ) (hx : ¬ W ≤ x) :
    putChars blend W (c :: cs) ⟨x, y⟩ =
      (((⟨x, y⟩ : Pos2), blend ⟨x, y⟩ c) :: (putChars blend W cs ⟨x + 1, y⟩).1,
       (putChars blend W cs ⟨x + 1, y⟩).2) := by
  simp [putChars, wrapPos, hx]

lemma putChars_run (blend : Pos2 → Char → Cell) (W : ℕ) :
    ∀ (cs : List Char) (x y : ℕ), x + cs.length ≤ W →
      (putChars blend W cs ⟨x, y⟩).2 = ⟨x + cs.length, y⟩ ∧
      ∀ pc ∈ (putChars blend W cs ⟨x, y⟩).1, pc.1.x < W ∧ pc.1.y = y := by
  intro cs
  induction cs with
  | nil =>
    intro x y h
    exact ⟨rfl, by simp [putChars]⟩
  | cons c cs ih =>
    intro x y h
    simp only [List.length_cons] at h
    have hx : ¬ W ≤ x := by omega
    obtain ⟨ih1, ih2⟩ := ih (x + 1) y (by omega)
    rw [putChars_cons_nowrap blend W c cs x y hx]
    constructor
    · rw [ih1]
      simp [Pos2.mk.injEq]
      omega
    · intro pc hpc
      rcases List.mem_cons.mp hpc with hh | hh
      · rw [hh]
        refine ⟨?_, rfl⟩
        show x < W
        omega
      · exact ih2 pc hh

lemma putChars_cells (blend : Pos2 → Char → Cell) (W : ℕ) :
    ∀ (cs : List Char) (s : Pos2), ∀ pc ∈ (putChars blend W cs s).1,
      ∃ ch, pc.2 = blend pc.1 ch := by
  intro cs
  induction cs with
  | nil => intro s pc hpc; simp [putChars] at hpc
  | cons c cs ih =>
    intro s pc hpc
    simp only [putChars, List.mem_cons] at hpc
    rcases hpc with h | h
    · exact ⟨c, by rw [h]⟩
    · exact ih _ pc h

lemma padRow_lt (blend : Pos2 → Char → Cell) (W x y : ℕ) (hx : x < W) :
    padRow blend W x y
      = ((⟨x, y⟩ : Pos2), blend ⟨x, y⟩ ' ') :: padRow blend W (x + 1) y := by
  rw [padRow]
  simp [hx]

lemma padRow_ge (blend : Pos2 → Char → Cell) (W x y : ℕ) (hx : ¬ x < W) :
    padRow blend W x y = [] := by
  rw [padRow]
  simp [hx]

lemma padRow_mem (blend : Pos2 → Char → Cell) (W : ℕ) :
    ∀ (n x y : ℕ), W - x ≤ n → ∀ pc ∈ padRow blend W x y,
      (pc.1.x < W ∧ pc.1.y = y) ∧ pc.2 = blend pc.1 ' ' := by
  intro n
  induction n with
  | zero =>
    intro x y hn pc hpc
    rw [padRow_ge blend W x y (by omega)] at hpc
    simp at hpc
  | succ n ih =>
    intro x y hn pc hpc
    by_cases hx : x < W
    · rw [padRow_lt blend W x y hx] at hpc
      rcases List.mem_cons.mp hpc with h | h
      · rw [h]
        exact ⟨⟨hx, rfl⟩, rfl⟩
      · exact ih (x + 1) y (by omega) pc h
    · rw [padRow_ge blend W x y hx] at hpc
      simp at hpc

lemma padRow_bounds (blend : Pos2 → Char → Cell) (W x y : ℕ) :
    ∀ pc ∈ padRow blend W x y,
      (pc.1.x < W ∧ pc.1.y = y) ∧ pc.2 = blend pc.1 ' ' :=
  padRow_mem blend W (W - x) x y le_rfl

lemma fillRow_mem (blend : Pos2 → Char → Cell) (W y : ℕ) :
    ∀ pc ∈ fillRow blend W y,
      (pc.1.x < W ∧ pc.1.y = y) ∧ pc.2 = blend pc.1 ' ' := by
  intro pc hpc
  simp only [fillRow, List.mem_map, List.mem_range] at hpc
  obtain ⟨i, hi, hpc⟩ := hpc
  rw [← hpc]
  exact ⟨⟨hi, rfl⟩, rfl⟩

lemma fillRest_lt (blend : Pos2 → Char → Cell) (W H y : ℕ) (hy : y < H) :
    fillRest blend W H y = fillRow blend W y ++ fillRest blend W H (y + 1) := by
  rw [fillRest]
  simp [hy]

lemma fillRest_ge (blend : Pos2 → Char → Cell) (W H y : ℕ) (hy : ¬ y < H) :
    fillRest blend W H y = [] := by
  rw [fillRest]
  simp [hy]

lemma fillRest_mem (blend : Pos2 → Char → Cell) (W H : ℕ) :
    ∀ (n y : ℕ), H - y ≤ n → ∀ pc ∈ fillRest blend W H y,
      (pc.1.x < W ∧ pc.1.y < H) ∧ pc.2 = blend pc.1 ' ' := by
  intro n
  induction n with
  | zero =>
    intro y hn pc hpc
    rw [fillRest_ge blend W H y (by omega)] at hpc
    simp at hpc
  | succ n ih =>
    intro y hn pc hpc
    by_cases hy : y < H
    · rw [fillRest_lt blend W H y hy] at hpc
      rcases List.mem_append.mp hpc with h | h
      · obtain ⟨⟨h1, h2⟩, h3⟩ := fillRow_mem blend W y pc h
        exact ⟨⟨h1, by omega⟩, h3⟩
      · exact ih (y + 1) (by omega) pc h
    · rw [fillRest_ge blend W H y hy] at hpc
      simp at hpc

lemma fillRest_bounds (blend : Pos2 → Char → Cell) (W H y : ℕ) :
    ∀ pc ∈ fillRest blend W H y,
      (pc.1.x < W ∧ pc.1.y < H) ∧ pc.2 = blend pc.1 ' ' :=
  fillRest_mem blend W H (H - y) y le_rfl

lemma drawLines_stop (blend : Pos2 → Char → Cell) (W H : ℕ) (line : List Char)
    (rest : List (List Char)) (s : Pos2) (hy : H ≤ s.y) :
    drawLines blend W H (line :: rest) s = ([], s) := by
  simp [drawLines, hy]

lemma drawLines_cons (blend : Pos2 → Char → Cell) (W H : ℕ) (line : List Char)
    (rest : List (List Char)) (s : Pos2) (hy : ¬ H ≤ s.y) :
    drawLines blend W H (line :: rest) s =
      ((putChars blend W line s).1
          ++ padRow blend W (putChars blend W line s).2.x (putChars blend W line s).2.y
          ++ (drawLines blend W H rest ⟨0, (putChars blend W line s).2.y + 1⟩).1,
       (drawLines blend W H rest ⟨0, (putChars blend W line s).2.y + 1⟩).2) := by
  simp [drawLines, hy]

lemma drawLines_bounds (blend : Pos2 → Char → Cell) (W H : ℕ) :
    ∀ (ls : List (List Char)) (y : ℕ), (∀ l ∈ ls, l.length ≤ W) →
      ∀ pc ∈ (drawLines blend W H ls ⟨0, y⟩).1, pc.1.x < W ∧ pc.1.y < H := by
  intro ls
  induction ls with
  | nil => intro y hl pc hpc; simp [drawLines] at hpc
  | cons line rest ih =>
    intro y hl pc hpc
    by_cases hy : H ≤ ((⟨0, y⟩ : Pos2)).y
    · rw [drawLines_stop blend W H line rest _ hy] at hpc
      simp at hpc
    · rw [drawLines_cons blend W H line rest _ hy] at hpc
      have hlen : line.length ≤ W := hl line (.head _)
      obtain ⟨hfin, hmem⟩ := putChars_run blend W line 0 y (by omega)
      simp only [List.mem_append] at hpc
      rcases hpc with (h | h) | h
      · obtain ⟨h1, h2⟩ := hmem pc h
        exact ⟨h1, by simp at hy; omega⟩
      · rw [hfin] at h
        obtain ⟨⟨h1, h2⟩, _⟩ := padRow_bounds blend W (0 + line.length) y pc h
        exact ⟨h1, by simp at hy; omega⟩
      · rw [hfin] at h
        exact ih (y + 1) (fun l hm => hl l (.tail _ hm)) pc h

lemma drawLines_cells (blend : Pos2 → Char → Cell) (W H : ℕ) :
    ∀ (ls : List (List Char)) (s : Pos2), ∀ pc ∈ (drawLines blend W H ls s).1,
      ∃ ch, pc.2 = blend pc.1 ch := by
  intro ls
  induction ls with
  | nil => intro s pc hpc; simp [drawLines] at hpc
  | cons line rest ih =>
    intro s pc hpc
    by_cases hy : H ≤ s.y
    · rw [drawLines_stop blend W H line rest s hy] at hpc
      simp at hpc
    · rw [drawLines_cons blend W H line rest s hy] at hpc
      simp only [List.mem_append] at hpc
      rcases hpc with (h | h) | h
      · exact putChars_cells blend W line s pc h
      · exact ⟨' ', (padRow_bounds blend W _ _ pc h).2⟩
      · exact ih _ pc h

lemma render_cells (fill : Rgb) (blend : Pos2 → Char → Cell)
    (docLines : List (List Char)) (W H skip : ℕ) :
    ∀ pc ∈ (render fill blend docLines W H skip).2, ∃ ch, pc.2 = blend pc.1 ch := by
  intro pc hpc
  simp only [render, List.mem_append] at hpc
  rcases hpc with h | h
  · exact drawLines_cells blend W H _ _ pc h
  · split at h
    · exact ⟨' ', (fillRest_bounds blend W H _ pc h).2⟩
    · simp at h

/-- Single line "ab" on a 1×1 grid, for the soft-wrap overflow counterexample. -/
def appF : App := ⟨⟨0, 0⟩, false, [['a', 'b']], 1⟩

/-- C3 counterexample: on a 1×1 grid the single logical line "ab" soft-wraps
past the bottom: the render emits a put whose coordinate is outside the grid
(row index 1 on a height-1 grid). -/
theorem c3_counterexample :
    ∃ pc ∈ (drawUi zeroOps appF 1 1).2, ¬(pc.1.x < 1 ∧ pc.1.y < 1) := by
  decide

/-- C3 (amended): the height bound is enforced only at logical-line
boundaries, so a line longer than `W` may soft-wrap past the bottom and emit
writes with row index at least `H`; when every document line has at most `W`
characters, the render never writes outside the `W×H` grid. -/
theorem c3_within_grid (F : FloatOps) (app : App) (W H : ℕ)
    (hlen : ∀ l ∈ app.lines, l.length ≤ W) :
    withinGrid W H (drawUi F app W H).2 := by
  intro pc hpc
  dsimp only [drawUi, renderAt, render] at hpc
  rcases List.mem_append.mp hpc with h | h
  · exact drawLines_bounds (maybe_blend F app) W H _ 0
      (fun l hm => hlen l (List.drop_subset _ _ hm)) pc h
  · split at h
    · exact (fillRest_bounds (maybe_blend F app) W H _ pc h).1
    · simp at h

/-- Document whose single two-character line fits a width-3 grid, for the C3
witness. -/
def appE : App := ⟨⟨0, 0⟩, false, [['h', 'i']], 1⟩

/-- C3 witness: the amended theorem applied at a concrete document and grid. -/
theorem c3_within_grid_witness : withinGrid 3 2 (drawUi zeroOps appE 3 2).2 :=
  c3_within_grid zeroOps appE 3 2 (by decide)

lemma drawLines_height_zero (blend : Pos2 → Char → Cell) (W : ℕ)
    (ls : List (List Char)) :
    drawLines blend W 0 ls ⟨0, 0⟩ = ([], ⟨0, 0⟩) := by
  cases ls with
  | nil => rfl
  | cons line rest => exact drawLines_stop blend W 0 line rest ⟨0, 0⟩ (Nat.le_refl 0)

lemma fillRow_width_zero (blend : Pos2 → Char → Cell) (y : ℕ) :
    fillRow blend 0 y = [] := by
  simp [fillRow]

lemma fillRest_width_zero (blend : Pos2 → Char → Cell) (H : ℕ) :
    ∀ (n y : ℕ), H - y ≤ n → fillRest blend 0 H y = [] := by
  intro n
  induction n with
  | zero => intro y hn; exact fillRest_ge blend 0 H y (by omega)
  | succ n ih =>
    intro y hn
    by_cases hy : y < H
    · rw [fillRest_lt blend 0 H y hy, fillRow_width_zero, ih (y + 1) (by omega)]
      rfl
    · exact fillRest_ge blend 0 H y hy

lemma drawLines_empty_lines (blend : Pos2 → Char → Cell) (H : ℕ) :
    ∀ (ls : List (List Char)) (y : ℕ), (∀ l ∈ ls, l = []) →
      (drawLines blend 0 H ls ⟨0, y⟩).1 = [] := by
  intro ls
  induction ls with
  | nil => intro y h; rfl
  | cons line rest ih =>
    intro y h
    by_cases hy : H ≤ ((⟨0, y⟩ : Pos2)).y
    · rw [drawLines_stop blend 0 H line rest _ hy]
    · rw [drawLines_cons blend 0 H line rest _ hy]
      have hline : line = [] := h line (.head _)
      subst hline
      rw [show putChars blend 0 ([] : List Char) ⟨0, y⟩ = ([], ⟨0, y⟩) from rfl]
      rw [show ((([], ⟨0, y⟩) : List (Pos2 × Cell) × Pos2)).2.x = 0 from rfl]
      rw [padRow_ge blend 0 0 _ (by omega)]
      rw [ih (y + 1) (fun l hm => h l (.tail _ hm))]
      rfl

/-- Single line "a", for the zero-width counterexample. -/
def appG : App := ⟨⟨0, 0⟩, false, [['a']], 1⟩

/-- C7 counterexample: with `W = 0`, `H = 2`, the render of a one-character
document emits a put (at column 0 of the next row) rather than zero cells. -/
theorem c7_counterexample : (drawUi zeroOps appG 0 2).2 ≠ [] := by
  decide

/-- C7 (amended): a zero-height grid yields zero emitted cells for every
document and every pos, unconditionally; a zero-width grid yields zero
emitted cells when every document line is empty (a nonempty line instead
emits each character at column 0 of successive rows after wrapping). -/
theorem c7_degenerate (F : FloatOps) (app : App) (W H : ℕ) :
    (drawUi F app W 0).2 = [] ∧
    ((∀ l ∈ app.lines, l = []) → (drawUi F app 0 H).2 = []) := by
  constructor
  · dsimp only [drawUi, renderAt, render]
    rw [drawLines_height_zero]
    rfl
  · intro hempty
    dsimp only [drawUi, renderAt, render]
    rw [drawLines_empty_lines (maybe_blend F app) H _ _
      (fun l hm => hempty l (List.drop_subset _ _ hm))]
    split
    · rw [fillRest_width_zero (maybe_blend F app) H
        (H - (drawLines (maybe_blend F app) 0 H
          (app.lines.drop (offsetOf app.lines.length app.pos H)) ⟨0, 0⟩).2.y) _ le_rfl]
      rfl
    · rfl

/-- All-empty two-line document, for the C7 witness. -/
def appH : App := ⟨⟨0, 0⟩, false, [[], []], 2⟩

/-- C7 witness: the amended theorem applied twice concretely — the
zero-height conjunct at a nonempty one-character document, and the
zero-width conjunct at an all-empty document, discharging its hypothesis. -/
theorem c7_witness :
    (drawUi zeroOps appG 4 0).2 = [] ∧ (drawUi zeroOps appH 0 3).2 = [] :=
  ⟨(c7_degenerate zeroOps appG 4 3).1, (c7_degenerate zeroOps appH 4 3).2 (by decide)⟩

lemma maybe_blend_disabled (F : FloatOps) (app : App) (h : app.enabled = false) :
    maybe_blend F app = fun _ c => Cell.mk c FG BG := by
  funext p c
  simp [maybe_blend, h]

/-- C10: with the spotlight disabled the rendered frame does not depend on
the tracked pointer position: two states identical except for the pointer
render byte-identical frames, the fill color is parchment, and every emitted
cell carries the fixed ink foreground and parchment background. -/
theorem c10_noninterference (F : FloatOps) (W H pos : ℕ) (lines : List (List Char))
    (p1 p2 : Pos2) :
    drawUi F ⟨p1, false, lines, pos⟩ W H = drawUi F ⟨p2, false, lines, pos⟩ W H ∧
    (drawUi F ⟨p1, false, lines, pos⟩ W H).1 = BG ∧
    allInk (drawUi F ⟨p1, false, lines, pos⟩ W H).2 := by
  have hb : ∀ p : Pos2, maybe_blend F ⟨p, false, lines, pos⟩ = fun _ c => Cell.mk c FG BG :=
    fun p => maybe_blend_disabled F _ rfl
  refine ⟨?_, rfl, ?_⟩
  · dsimp only [drawUi, renderAt]
    rw [hb p1, hb p2]
  · intro pc hpc
    dsimp only [drawUi, renderAt] at hpc
    obtain ⟨ch, hch⟩ := render_cells _ _ _ _ _ _ pc hpc
    rw [hb p1] at hch
    rw [hch]
    exact ⟨rfl, rfl⟩

/-- C10 witness: the theorem applied at two concrete states that differ only
in the pointer coordinate. -/
theorem c10_witness :
    drawUi zeroOps ⟨⟨1, 1⟩, false, [['h']], 1⟩ 2 2
      = drawUi zeroOps ⟨⟨7, 9⟩, false, [['h']], 1⟩ 2 2 ∧
    (drawUi zeroOps ⟨⟨1, 1⟩, false, [['h']], 1⟩ 2 2).1 = BG ∧
    allInk (drawUi zeroOps ⟨⟨1, 1⟩, false, [['h']], 1⟩ 2 2).2 :=
  c10_noninterference zeroOps 2 2 1 [['h']] ⟨1, 1⟩ ⟨7, 9⟩

end Torch
